import Mathlib

/-!
A shallow embedding of the `actix-form-data` upload pipeline
(`src/upload.rs`), together with the parts of the crate's data model
(`types` and `error` modules) that `upload.rs` depends on.

Byte strings are modelled as `List Nat` (one entry per byte), chunked
streams as `List (List Nat)`, and the fallible futures of the source as
`Except Error` computations.  Filesystem side effects (directory creation
and the actual disk writes of the streaming file writer) are elided: the
embedding keeps the pure decision logic — error selection, counters,
size checks — exactly as the source performs it.
-/

deriving instance DecidableEq for Except

namespace FormData

/-- One decoded path segment of a field's wire name (`types::NamePart`):
a map key or an unindexed array placeholder. -/
inductive NamePart where
  | Map (name : String)
  | Array
  deriving DecidableEq, Repr

/-- `NamePart::is_map` (from the `types` module): true exactly on map keys. -/
def NamePart.is_map : NamePart → Bool
  | .Map _ => true
  | .Array => false

/-- The error taxonomy (`error::Error`), restricted to the variants that the
code modelled here can produce.  Payloads carried by `ParseField`,
`ParseInt`, `ParseFloat` and `Multipart` in the source are dropped: only
the variant choice is observable to the claims. -/
inductive Error where
  | Field
  | ContentDisposition
  | FieldType
  | FieldSize
  | FileSize
  | FieldCount
  | FileCount
  | ParseField
  | ParseInt
  | ParseFloat
  | Filename
  | GenFilename
  | MkDir
  | Multipart
  deriving DecidableEq, Repr

/-- The fully realized content of one field (`types::MultipartContent`).
The `f64` payload of `Float` is kept as the source string that parsed as a
float: the claims only observe parse success or failure, never float
arithmetic. -/
inductive MultipartContent where
  | Bytes (bytes : List Nat)
  | Text (text : String)
  | Int (int : Int)
  | Float (float : String)
  | File (filename : String) (stored_as : String)
  deriving DecidableEq, Repr

/-- True exactly on the `File` variant. -/
def MultipartContent.isFile : MultipartContent → Bool
  | .File _ _ => true
  | _ => false

/-- Content-disposition metadata of one incoming field
(`types::ContentDisposition`). -/
structure ContentDisposition where
  name : Option String
  filename : Option String
  deriving DecidableEq, Repr

/-- Modelled from the spec: `ContentDisposition::empty()` lives in the
crate's `types` module, which is not present under `src/`; the spec
describes the metadata as `{name: optional string, filename: optional
string}`, so the empty value carries neither. -/
def ContentDisposition.empty : ContentDisposition := ⟨none, none⟩

/-- A filename-generation capability (`FilenameGenerator::next_filename`):
given the field's declared content type, optionally choose a storage
path.  Mime types and paths are modelled as strings. -/
def FileGen : Type := String → Option String

/-- One node of the schema tree (`types::Field`). -/
inductive Field where
  | Text
  | Int
  | Float
  | Bytes
  | Map (children : List (String × Field))
  | Array (elem : Field)
  | File (gen : FileGen)

/-- A terminal schema node (`types::FieldTerminator`): what the schema
matcher hands to the content handler. -/
inductive FieldTerminator where
  | File (gen : FileGen)
  | Bytes
  | Float
  | Int
  | Text

/-- The declared shape and limits of a submission (`types::Form`). -/
structure Form where
  fields : List (String × Field)
  max_fields : Nat
  max_files : Nat
  max_field_size : Nat
  max_file_size : Nat

/-- Splitting a character list at `'['`, with the semantics of Rust's
`str::split('[')`: the separator is dropped, and leading, trailing and
adjacent separators produce empty pieces (`"".split` is `[""]`). -/
def splitOnLBracket : List Char → List (List Char)
  | [] => [[]]
  | c :: rest =>
    if c = '[' then [] :: splitOnLBracket rest
    else
      match splitOnLBracket rest with
      | h :: t => (c :: h) :: t
      | [] => [[c]]

/-- The classification step of `parse_multipart_name` (src/upload.rs:73-81):
a piece of byte length 1 ending in `']'` is the array placeholder; any
other piece ending in `']'` is a map key with the trailing `']'`s removed
(Rust's `trim_end_matches(']')`); anything else is a verbatim map key. -/
def classifyPart (part : List Char) : NamePart :=
  if part.length = 1 ∧ part.getLast? = some ']' then .Array
  else if part.getLast? = some ']' then
    .Map (String.mk ((part.reverse.dropWhile (fun c => c = ']')).reverse))
  else .Map (String.mk part)

/-- The fold body of `parse_multipart_name` (src/upload.rs:82-92): an
already-failed accumulator is kept; otherwise the part is pushed unless
the vector is still empty and the part is not a map key, which fails
with `ContentDisposition`. -/
def nameFoldStep (acc : Except Error (List NamePart)) (part : NamePart) :
    Except Error (List NamePart) :=
  match acc with
  | .ok v =>
    if v.length = 0 ∧ ¬part.is_map then .error Error.ContentDisposition
    else .ok (v ++ [part])
  | .error e => .error e

/-- `parse_multipart_name` (src/upload.rs:71-93): split the raw name at
`'['`, classify every piece, and fold the pieces into a vector, failing
with `ContentDisposition` when the very first piece is not a map key. -/
def parseMultipartName (name : String) : Except Error (List NamePart) :=
  ((splitOnLBracket name.toList).map classifyPart).foldl nameFoldStep (.ok [])

/-- `parse_content_disposition` (src/upload.rs:95-103).  The actix field's
optional content-disposition header is modelled as an optional pair of
its optional name and optional filename. -/
def parseContentDisposition (raw : Option (Option String × Option String)) :
    ContentDisposition :=
  match raw with
  | some (n, f) => ⟨n, f⟩
  | none => ContentDisposition.empty

/-- The chunk-accumulation fold of `handle_form_data`
(src/upload.rs:186-195): each arriving chunk is appended to the buffer
only when the extended length stays strictly below `max` (the form's
`max_field_size`); otherwise the fold aborts with `FieldSize`. -/
def accumulateField (chunks : List (List Nat)) (max : Nat) :
    Except Error (List Nat) :=
  chunks.foldlM
    (fun acc bytes =>
      if acc.length + bytes.length < max then Except.ok (acc ++ bytes)
      else Except.error Error.FieldSize)
    []

/-- UTF-8 decoding of a byte list, with the semantics of Rust's
`String::from_utf8`: continuation bytes must lie in `0x80..0xBF`,
overlong encodings, surrogate code points and code points above
`0x10FFFF` are rejected. -/
def utf8Decode : List Nat → Option (List Char)
  | [] => some []
  | b :: rest =>
    if b < 0x80 then (utf8Decode rest).map (fun cs => Char.ofNat b :: cs)
    else if b < 0xC0 then none
    else if b < 0xE0 then
      match rest with
      | c1 :: rest2 =>
        if 0x80 ≤ c1 ∧ c1 < 0xC0 then
          let cp := (b - 0xC0) * 0x40 + (c1 - 0x80)
          if 0x80 ≤ cp then
            (utf8Decode rest2).map (fun cs => Char.ofNat cp :: cs)
          else none
        else none
      | [] => none
    else if b < 0xF0 then
      match rest with
      | c1 :: c2 :: rest3 =>
        if (0x80 ≤ c1 ∧ c1 < 0xC0) ∧ (0x80 ≤ c2 ∧ c2 < 0xC0) then
          let cp := (b - 0xE0) * 0x1000 + (c1 - 0x80) * 0x40 + (c2 - 0x80)
          if 0x800 ≤ cp ∧ ¬(0xD800 ≤ cp ∧ cp ≤ 0xDFFF) then
            (utf8Decode rest3).map (fun cs => Char.ofNat cp :: cs)
          else none
        else none
      | _ => none
    else if b < 0xF8 then
      match rest with
      | c1 :: c2 :: c3 :: rest4 =>
        if (0x80 ≤ c1 ∧ c1 < 0xC0) ∧ (0x80 ≤ c2 ∧ c2 < 0xC0) ∧
            (0x80 ≤ c3 ∧ c3 < 0xC0) then
          let cp := (b - 0xF0) * 0x40000 + (c1 - 0x80) * 0x1000 +
            (c2 - 0x80) * 0x40 + (c3 - 0x80)
          if 0x10000 ≤ cp ∧ cp ≤ 0x10FFFF then
            (utf8Decode rest4).map (fun cs => Char.ofNat cp :: cs)
          else none
        else none
      | _ => none
    else none

/-- Parsing of a decimal digit list into a number: `some` exactly when the
list is nonempty and all characters are ASCII digits. -/
def digitsToNat : List Char → Option Nat
  | [] => none
  | [c] => if c.isDigit then some (c.toNat - '0'.toNat) else none
  | c :: rest =>
    if c.isDigit then
      (digitsToNat rest).map (fun n => (c.toNat - '0'.toNat) * 10 ^ rest.length + n)
    else none

/-- Rust's `i64::from_str`: an optional sign followed by one or more
decimal digits, with the value required to fit in a signed 64-bit
integer. -/
def parseI64 (s : String) : Option Int :=
  let withSign : Int × List Char :=
    match s.toList with
    | '+' :: r => (1, r)
    | '-' :: r => (-1, r)
    | r => (1, r)
  (digitsToNat withSign.2).bind (fun n =>
    let v : Int := withSign.1 * (n : Int)
    if -(2 ^ 63) ≤ v ∧ v ≤ 2 ^ 63 - 1 then some v else none)

/-- Splitting at the first exponent marker `e`/`E`, keeping everything
after it (used by the float grammar below). -/
def splitAtExp : List Char → List Char × Option (List Char)
  | [] => ([], none)
  | c :: rest =>
    if c = 'e' ∨ c = 'E' then ([], some rest)
    else
      let r := splitAtExp rest
      (c :: r.1, r.2)

/-- The mantissa forms of Rust's float grammar: `Digits`, `Digits '.'
Digits?`, or `'.' Digits`. -/
def validMantissa (cs : List Char) : Bool :=
  let ds := cs.takeWhile Char.isDigit
  let rest := cs.dropWhile Char.isDigit
  match rest with
  | [] => !ds.isEmpty
  | '.' :: frac =>
    if ds.isEmpty then !frac.isEmpty && frac.all Char.isDigit
    else frac.all Char.isDigit
  | _ => false

/-- An exponent body: an optional sign followed by one or more digits. -/
def validExp (cs : List Char) : Bool :=
  match cs with
  | '+' :: r => !r.isEmpty && r.all Char.isDigit
  | '-' :: r => !r.isEmpty && r.all Char.isDigit
  | r => !r.isEmpty && r.all Char.isDigit

/-- Rust's `f64::from_str` acceptance, following the grammar documented
for it: an optional sign, then case-insensitive `inf`/`infinity`/`nan`
or a number `Mantissa Exp?`.  Only acceptance matters to the claims
(every grammatically valid string parses successfully in Rust). -/
def isValidF64 (s : String) : Bool :=
  let cs :=
    match s.toList with
    | '+' :: r => r
    | '-' :: r => r
    | r => r
  let lower := cs.map Char.toLower
  if lower = "inf".toList ∨ lower = "infinity".toList ∨ lower = "nan".toList
  then true
  else
    match splitAtExp cs with
    | (mant, none) => validMantissa mant
    | (mant, some ex) => validMantissa mant && validExp ex

/-- The first continuation of `handle_form_data` (src/upload.rs:196-201):
a `Bytes` terminal freezes the raw buffer; every other terminal decodes
it as UTF-8, failing with `ParseField` on invalid bytes. -/
def contentOfBuffer (term : FieldTerminator) (bytes : List Nat) :
    Except Error MultipartContent :=
  match term with
  | .Bytes => .ok (.Bytes bytes)
  | _ =>
    match utf8Decode bytes with
    | some cs => .ok (.Text (String.mk cs))
    | none => .error Error.ParseField

/-- The second continuation of `handle_form_data` (src/upload.rs:202-221):
decoded text is parsed according to the terminal (`File`/`Bytes`
terminals reject it with `FieldType`, `Float`/`Int` parse it, `Text`
keeps it); raw bytes pass through; any other content is a `FieldType`
mismatch. -/
def finishContent (term2 : FieldTerminator) (content : MultipartContent) :
    Except Error MultipartContent :=
  match content with
  | .Text string =>
    match term2 with
    | .File _ => .error Error.FieldType
    | .Bytes => .error Error.FieldType
    | .Float =>
      if isValidF64 string then .ok (.Float string)
      else .error Error.ParseFloat
    | .Int =>
      match parseI64 string with
      | some n => .ok (.Int n)
      | none => .error Error.ParseInt
    | .Text => .ok (.Text string)
  | .Bytes b => .ok (.Bytes b)
  | _ => .error Error.FieldType

/-- `handle_form_data` (src/upload.rs:177-223): accumulate the chunk
stream under the field-size cap, then run both continuations (the source
clones the terminator into `term2`; the clone is the same value). -/
def handleFormData (chunks : List (List Nat)) (term : FieldTerminator)
    (form : Form) : Except Error MultipartContent :=
  (accumulateField chunks form.max_field_size).bind (fun bytes =>
    (contentOfBuffer term bytes).bind (fun content =>
      finishContent term content))

/-- Splitting a character list at `'/'` (Rust path component grammar). -/
def splitOnSlash : List Char → List (List Char)
  | [] => [[]]
  | c :: rest =>
    if c = '/' then [] :: splitOnSlash rest
    else
      match splitOnSlash rest with
      | h :: t => (c :: h) :: t
      | [] => [[c]]

/-- Rust's `Path::file_name` composed with `to_str`, on POSIX-style
paths: the last path component after dropping empty and `"."`
components, unless that component is `".."` (or there is none). -/
def pathFileName (s : String) : Option String :=
  let comps := (splitOnSlash s.toList).filter
    (fun c => ¬c.isEmpty ∧ c ≠ ['.'])
  match comps.getLast? with
  | none => none
  | some last => if last = ['.', '.'] then none else some (String.mk last)

/-- The per-chunk size check of `handle_file_upload`
(src/upload.rs:154-168): a running byte counter is advanced by each
chunk's length, and the upload aborts with `FileSize` as soon as the
counter exceeds `max` (the form's `max_file_size`).  Returns the final
counter value. -/
def fileSizeFold (chunks : List (List Nat)) (max : Nat) : Except Error Nat :=
  chunks.foldlM
    (fun counter bytes =>
      let size := counter + bytes.length
      if size > max then Except.error Error.FileSize else Except.ok size)
    0

/-- `handle_file_upload` (src/upload.rs:124-175): require a filename from
the content disposition, keep only its final path component, ask the
generation capability for a storage path, then stream the chunks through
the size check and yield the `File` content.  Directory creation and the
disk writes of the streaming file writer are elided (their `MkDir`/`Io`
failure paths are outside the modelled claims). -/
def handleFileUpload (contentType : String) (gen : FileGen)
    (filename : Option String) (form : Form) (chunks : List (List Nat)) :
    Except Error MultipartContent :=
  match filename with
  | none => .error Error.Filename
  | some fname =>
    match pathFileName fname with
    | none => .error Error.Filename
    | some base =>
      match gen contentType with
      | none => .error Error.GenFilename
      | some storedAs =>
        (fileSizeFold chunks form.max_file_size).map
          (fun _ => .File base storedAs)

/-- The final nested output tree (`types::Value`).  The source keys maps
with a `HashMap`; here a map is an insertion-ordered association list,
which the merge operation below treats up to keys. -/
inductive Value where
  | Map (entries : List (String × Value))
  | Array (elems : List Value)
  | Text (text : String)
  | Int (int : Int)
  | Float (float : String)
  | Bytes (bytes : List Nat)
  | File (filename : String) (stored_as : String)

mutual

/-- Modelled from the spec: `Value::merge` lives in the crate's `types`
module, which is not present under `src/`.  Per the spec's invariants,
merging two maps unions their keys, recursively merging values present
in both; merging two arrays concatenates their elements in encounter
order; merging any other pair is an internal-error case the spec calls
unreachable for schema-derived structure — it is modelled as keeping the
left value, a choice no claim depends on. -/
def Value.merge : Value → Value → Value
  | Value.Map l, Value.Map r => Value.Map (Value.mergeEntries l r)
  | Value.Array l, Value.Array r => Value.Array (l ++ r)
  | v, _ => v

/-- Folds the right map's entries into the left map (part of the
spec-modelled `Value::merge`). -/
def Value.mergeEntries :
    List (String × Value) → List (String × Value) → List (String × Value)
  | acc, [] => acc
  | acc, (k, v) :: rest => Value.mergeEntries (Value.insertEntry acc k v) rest

/-- Inserts one key/value pair into a map's entries, recursively merging
with an existing entry under the same key (part of the spec-modelled
`Value::merge`). -/
def Value.insertEntry :
    List (String × Value) → String → Value → List (String × Value)
  | [], k, v => [(k, v)]
  | (k1, v1) :: rest, k, v =>
    if k1 = k then (k1, Value.merge v1 v) :: rest
    else (k1, v1) :: Value.insertEntry rest k v

end

/-- Modelled from the spec: the `From<MultipartContent> for Value`
conversion lives in the crate's `types` module, which is not present
under `src/`; per the spec's data model the `Value` variants mirror the
content variants, so the conversion is the evident injection. -/
def Value.fromContent : MultipartContent → Value
  | .Bytes b => .Bytes b
  | .Text s => .Text s
  | .Int n => .Int n
  | .Float f => .Float f
  | .File fname stored => .File fname stored

/-- One completed field: its parsed name path and its realized content
(`types::MultipartHash`). -/
abbrev MultipartHash : Type := List NamePart × MultipartContent

/-- `consolidate` (src/upload.rs:45-69): fold the completed fields into
one tree, wrapping each content from the innermost name segment outward
(the source reverses the path and folds left, so the last segment is
applied first) and merging the resulting singleton into the
accumulator, which starts as an empty map. -/
def consolidate (mf : List MultipartHash) : Value :=
  mf.foldl
    (fun acc p =>
      let start_value := Value.fromContent p.2
      let value := p.1.reverse.foldl
        (fun acc namepart =>
          match namepart with
          | NamePart.Map name => Value.Map [(name, acc)]
          | NamePart.Array => Value.Array [acc])
        start_value
      Value.merge acc value)
    (Value.Map [])

/-- Modelled from the spec: `Form::valid_field` (the Schema Matcher)
lives in the crate's `types` module, which is not present under `src/`.
Per the spec, it walks the schema tree — a MapKey segment must match a
Map node's child key, an ArrayIndex segment must match an Array node's
element — and succeeds only when the path ends exactly at a scalar or
File node, whose terminator it returns. -/
def fieldWalk : Field → List NamePart → Option FieldTerminator
  | Field.Text, [] => some FieldTerminator.Text
  | Field.Int, [] => some FieldTerminator.Int
  | Field.Float, [] => some FieldTerminator.Float
  | Field.Bytes, [] => some FieldTerminator.Bytes
  | Field.File g, [] => some (FieldTerminator.File g)
  | Field.Map children, NamePart.Map name :: rest =>
    match children.lookup name with
    | some child => fieldWalk child rest
    | none => none
  | Field.Array elem, NamePart.Array :: rest => fieldWalk elem rest
  | _, _ => none

/-- `Form::valid_field` applied at the root: the form's top level is a
map of declared field names. -/
def Form.validField (form : Form) (parts : List NamePart) :
    Option FieldTerminator :=
  fieldWalk (Field.Map form.fields) parts

/-- The front half of `handle_stream_field` (src/upload.rs:225-244): read
the content disposition's name (failing with `Field` when absent), parse
it, and match it against the schema (failing with `FieldType` on no
match), yielding the parsed path and the terminal to hand to the content
handler. -/
def resolveStreamField (cd : ContentDisposition) (form : Form) :
    Except Error (List NamePart × FieldTerminator) :=
  match cd.name with
  | none => .error Error.Field
  | some name =>
    match parseMultipartName name with
    | .error e => .error e
    | .ok parts =>
      match form.validField parts with
      | some term => .ok (parts, term)
      | none => .error Error.FieldType

/-- The accumulating fold of `handle_multipart` (src/upload.rs:279-319):
a completed file bumps the file counter and is accepted only while the
bumped counter is strictly below `max_files` (else `FileCount`); any
scalar content does the same against `max_fields` (else `FieldCount`). -/
def multipartStep (form : Form)
    (state : List MultipartHash × Nat × Nat) (item : MultipartHash) :
    Except Error (List MultipartHash × Nat × Nat) :=
  match state, item with
  | (acc, file_count, field_count), (name, content) =>
    match content with
    | MultipartContent.File filename stored_as =>
      let file_count := file_count + 1
      if file_count < form.max_files then
        .ok (acc ++ [(name, MultipartContent.File filename stored_as)],
          file_count, field_count)
      else .error Error.FileCount
    | b =>
      let field_count := field_count + 1
      if field_count < form.max_fields then
        .ok (acc ++ [(name, b)], file_count, field_count)
      else .error Error.FieldCount

/-- The fold of `handle_multipart` over the whole stream of completed
fields, starting from an empty accumulator and zeroed counters. -/
def multipartFold (items : List MultipartHash) (form : Form) :
    Except Error (List MultipartHash × Nat × Nat) :=
  items.foldlM (multipartStep form) ([], 0, 0)

/-- `handle_multipart` (src/upload.rs:275-322), over the stream of
already-completed fields: run the counting fold, then consolidate the
accepted list. -/
def handleMultipart (items : List MultipartHash) (form : Form) :
    Except Error Value :=
  (multipartFold items form).map (fun r => consolidate r.1)

/-- The total byte length of a chunked input. -/
def totalLen (chunks : List (List Nat)) : Nat := (chunks.map List.length).sum

/-- The spec's reading of the Consolidator's singleton construction
(§4.5): wrap the content at the innermost position and fold outward, an
ArrayIndex segment wrapping the current value in a one-element array and
a MapKey segment in a single-entry map. -/
def specSingleton (path : List NamePart) (content : MultipartContent) :
    Value :=
  path.foldr
    (fun namepart acc =>
      match namepart with
      | NamePart.Map name => Value.Map [(name, acc)]
      | NamePart.Array => Value.Array [acc])
    (Value.fromContent content)

/-- The number of completed file fields in a stream of items. -/
def countFiles (items : List MultipartHash) : Nat :=
  items.countP (fun p => p.2.isFile)

/-- The number of completed scalar (non-file) fields in a stream of
items. -/
def countFields (items : List MultipartHash) : Nat :=
  items.countP (fun p => !p.2.isFile)

/-! ### Helper lemmas -/

theorem splitOnLBracket_ne_nil (cs : List Char) : splitOnLBracket cs ≠ [] := by
  cases cs with
  | nil => simp [splitOnLBracket]
  | cons c rest =>
    rw [splitOnLBracket]
    split
    · simp
    · split <;> simp_all

theorem nameFold_error (parts : List NamePart) (e : Error) :
    parts.foldl nameFoldStep (.error e) = .error e := by
  induction parts with
  | nil => rfl
  | cons p rest ih => simpa [nameFoldStep] using ih

theorem nameFold_ok (parts : List NamePart) :
    ∀ v : List NamePart, v ≠ [] →
      parts.foldl nameFoldStep (.ok v) = .ok (v ++ parts) := by
  induction parts with
  | nil => intro v _; simp
  | cons p rest ih =>
    intro v hv
    have hlen : ¬(v.length = 0 ∧ ¬p.is_map) := by
      rintro ⟨h0, -⟩
      exact hv (List.length_eq_zero.mp h0)
    rw [List.foldl_cons, nameFoldStep, if_neg hlen,
      ih (v ++ [p]) (by simp)]
    simp

theorem parseName_ok_of_head_map (name : String) (p : NamePart)
    (rest : List NamePart)
    (h : (splitOnLBracket name.toList).map classifyPart = p :: rest)
    (hp : p.is_map = true) : parseMultipartName name = .ok (p :: rest) := by
  rw [parseMultipartName, h, List.foldl_cons, nameFoldStep]
  rw [if_neg (by simp [hp])]
  simpa using nameFold_ok rest [p] (by simp)

theorem parseName_error_of_head_not_map (name : String) (p : NamePart)
    (rest : List NamePart)
    (h : (splitOnLBracket name.toList).map classifyPart = p :: rest)
    (hp : p.is_map = false) :
    parseMultipartName name = .error Error.ContentDisposition := by
  rw [parseMultipartName, h, List.foldl_cons, nameFoldStep]
  rw [if_pos (by simp [hp])]
  exact nameFold_error rest Error.ContentDisposition

theorem accumFrom_ok (max : Nat) :
    ∀ (chunks : List (List Nat)) (acc : List Nat),
      acc.length + totalLen chunks < max →
      chunks.foldlM
        (fun acc bytes =>
          if acc.length + bytes.length < max then Except.ok (acc ++ bytes)
          else Except.error Error.FieldSize)
        acc = .ok (acc ++ chunks.flatten) := by
  intro chunks
  induction chunks with
  | nil => intro acc _; simp; rfl
  | cons c rest ih =>
    intro acc h
    have htot : totalLen (c :: rest) = c.length + totalLen rest := by
      simp [totalLen]
    have hstep : acc.length + c.length < max := by omega
    rw [List.foldlM_cons, if_pos hstep]
    have := ih (acc ++ c) (by simp; omega)
    simpa using this

theorem accumFrom_error (max : Nat) :
    ∀ (chunks : List (List Nat)) (acc : List Nat), chunks ≠ [] →
      max ≤ acc.length + totalLen chunks →
      chunks.foldlM
        (fun acc bytes =>
          if acc.length + bytes.length < max then Except.ok (acc ++ bytes)
          else Except.error Error.FieldSize)
        acc = .error Error.FieldSize := by
  intro chunks
  induction chunks with
  | nil => intro acc h _; exact absurd rfl h
  | cons c rest ih =>
    intro acc _ h
    have htot : totalLen (c :: rest) = c.length + totalLen rest := by
      simp [totalLen]
    by_cases hstep : acc.length + c.length < max
    · have hrest : rest ≠ [] := by
        intro hr
        rw [hr] at htot h
        simp [totalLen] at htot h
        omega
      rw [List.foldlM_cons, if_pos hstep]
      exact ih (acc ++ c) hrest (by simp; omega)
    · rw [List.foldlM_cons, if_neg hstep]
      rfl

theorem fileFrom_ok (max : Nat) :
    ∀ (chunks : List (List Nat)) (counter : Nat),
      counter + totalLen chunks ≤ max →
      chunks.foldlM
        (fun counter bytes =>
          let size := counter + bytes.length
          if size > max then Except.error Error.FileSize else Except.ok size)
        counter = .ok (counter + totalLen chunks) := by
  intro chunks
  induction chunks with
  | nil => intro counter _; simp [totalLen]; rfl
  | cons c rest ih =>
    intro counter h
    have htot : totalLen (c :: rest) = c.length + totalLen rest := by
      simp [totalLen]
    have hstep : ¬counter + c.length > max := by omega
    rw [List.foldlM_cons]
    simp only [if_neg hstep]
    have := ih (counter + c.length) (by omega)
    have h2 : counter + c.length + totalLen rest = counter + totalLen (c :: rest) := by
      rw [htot]; omega
    exact this.trans (congrArg Except.ok h2)

theorem fileFrom_error (max : Nat) :
    ∀ (chunks : List (List Nat)) (counter : Nat), chunks ≠ [] →
      max < counter + totalLen chunks →
      chunks.foldlM
        (fun counter bytes =>
          let size := counter + bytes.length
          if size > max then Except.error Error.FileSize else Except.ok size)
        counter = .error Error.FileSize := by
  intro chunks
  induction chunks with
  | nil => intro counter h _; exact absurd rfl h
  | cons c rest ih =>
    intro counter _ h
    have htot : totalLen (c :: rest) = c.length + totalLen rest := by
      simp [totalLen]
    by_cases hstep : counter + c.length > max
    · rw [List.foldlM_cons]
      simp only [if_pos hstep]
      rfl
    · have hrest : rest ≠ [] := by
        intro hr
        rw [hr] at htot h
        simp [totalLen] at htot h
        omega
      rw [List.foldlM_cons]
      simp only [if_neg hstep]
      exact ih (counter + c.length) hrest (by omega)

theorem multipartStep_file (form : Form) (acc : List MultipartHash)
    (fc dc : Nat) (name : List NamePart) (f s : String) :
    multipartStep form (acc, fc, dc) (name, .File f s) =
      if fc + 1 < form.max_files then
        .ok (acc ++ [(name, MultipartContent.File f s)], fc + 1, dc)
      else .error Error.FileCount := rfl

theorem multipartStep_scalar (form : Form) (acc : List MultipartHash)
    (fc dc : Nat) (name : List NamePart) (content : MultipartContent)
    (h : content.isFile = false) :
    multipartStep form (acc, fc, dc) (name, content) =
      if dc + 1 < form.max_fields then
        .ok (acc ++ [(name, content)], fc, dc + 1)
      else .error Error.FieldCount := by
  cases content
  case File f s => simp [MultipartContent.isFile] at h
  all_goals rfl

theorem isFile_eq_file (content : MultipartContent)
    (h : content.isFile = true) : ∃ f s, content = .File f s := by
  cases content
  case File f s => exact ⟨f, s, rfl⟩
  all_goals simp [MultipartContent.isFile] at h

theorem mpFold_accept (form : Form) :
    ∀ (items : List MultipartHash) (acc : List MultipartHash) (fc dc : Nat),
      (countFiles items = 0 ∨ fc + countFiles items < form.max_files) →
      (countFields items = 0 ∨ dc + countFields items < form.max_fields) →
      items.foldlM (multipartStep form) (acc, fc, dc) =
        .ok (acc ++ items, fc + countFiles items, dc + countFields items) := by
  intro items
  induction items with
  | nil =>
    intro acc fc dc _ _
    simp [countFiles, countFields]
    rfl
  | cons item rest ih =>
    obtain ⟨name, content⟩ := item
    intro acc fc dc hfile hfield
    cases hc : content.isFile
    case true =>
      obtain ⟨f, s, rfl⟩ := isFile_eq_file content hc
      have hcf : countFiles ((name, MultipartContent.File f s) :: rest) =
          countFiles rest + 1 := by
        simp [countFiles, List.countP_cons, MultipartContent.isFile]
      have hcd : countFields ((name, MultipartContent.File f s) :: rest) =
          countFields rest := by
        simp [countFields, List.countP_cons, MultipartContent.isFile]
      rw [hcf] at hfile ⊢
      rw [hcd] at hfield ⊢
      have hlt : fc + 1 < form.max_files := by
        rcases hfile with h | h <;> omega
      rw [List.foldlM_cons, multipartStep_file, if_pos hlt]
      have hf2 : countFiles rest = 0 ∨
          fc + 1 + countFiles rest < form.max_files :=
        Or.inr (by rcases hfile with h | h <;> omega)
      refine (ih (acc ++ [(name, MultipartContent.File f s)]) (fc + 1) dc
        hf2 hfield).trans (congrArg Except.ok ?_)
      simp
      omega
    case false =>
      have hcf : countFiles ((name, content) :: rest) = countFiles rest := by
        simp [countFiles, List.countP_cons, hc]
      have hcd : countFields ((name, content) :: rest) =
          countFields rest + 1 := by
        simp [countFields, List.countP_cons, hc]
      rw [hcf] at hfile ⊢
      rw [hcd] at hfield ⊢
      have hlt : dc + 1 < form.max_fields := by
        rcases hfield with h | h <;> omega
      rw [List.foldlM_cons, multipartStep_scalar form acc fc dc name content hc,
        if_pos hlt]
      have hd2 : countFields rest = 0 ∨
          dc + 1 + countFields rest < form.max_fields :=
        Or.inr (by rcases hfield with h | h <;> omega)
      refine (ih (acc ++ [(name, content)]) fc (dc + 1)
        hfile hd2).trans (congrArg Except.ok ?_)
      simp
      omega

theorem mpFold_fileCount (form : Form) :
    ∀ (items : List MultipartHash) (acc : List MultipartHash) (fc dc : Nat),
      1 ≤ countFiles items → form.max_files ≤ fc + countFiles items →
      (countFields items = 0 ∨ dc + countFields items < form.max_fields) →
      items.foldlM (multipartStep form) (acc, fc, dc) =
        .error Error.FileCount := by
  intro items
  induction items with
  | nil =>
    intro acc fc dc h1 _ _
    simp [countFiles] at h1
  | cons item rest ih =>
    obtain ⟨name, content⟩ := item
    intro acc fc dc h1 h2 hfield
    cases hc : content.isFile
    case true =>
      obtain ⟨f, s, rfl⟩ := isFile_eq_file content hc
      have hcf : countFiles ((name, MultipartContent.File f s) :: rest) =
          countFiles rest + 1 := by
        simp [countFiles, List.countP_cons, MultipartContent.isFile]
      have hcd : countFields ((name, MultipartContent.File f s) :: rest) =
          countFields rest := by
        simp [countFields, List.countP_cons, MultipartContent.isFile]
      rw [hcf] at h1 h2
      rw [hcd] at hfield
      by_cases hlt : fc + 1 < form.max_files
      · rw [List.foldlM_cons, multipartStep_file, if_pos hlt]
        exact ih (acc ++ [(name, MultipartContent.File f s)]) (fc + 1) dc
          (by omega) (by omega) hfield
      · rw [List.foldlM_cons, multipartStep_file, if_neg hlt]
        rfl
    case false =>
      have hcf : countFiles ((name, content) :: rest) = countFiles rest := by
        simp [countFiles, List.countP_cons, hc]
      have hcd : countFields ((name, content) :: rest) =
          countFields rest + 1 := by
        simp [countFields, List.countP_cons, hc]
      rw [hcf] at h1 h2
      rw [hcd] at hfield
      have hlt : dc + 1 < form.max_fields := by
        rcases hfield with h | h <;> omega
      rw [List.foldlM_cons, multipartStep_scalar form acc fc dc name content hc,
        if_pos hlt]
      exact ih (acc ++ [(name, content)]) fc (dc + 1) h1 h2
        (Or.inr (by rcases hfield with h | h <;> omega))

theorem mpFold_fieldCount (form : Form) :
    ∀ (items : List MultipartHash) (acc : List MultipartHash) (fc dc : Nat),
      1 ≤ countFields items → form.max_fields ≤ dc + countFields items →
      (countFiles items = 0 ∨ fc + countFiles items < form.max_files) →
      items.foldlM (multipartStep form) (acc, fc, dc) =
        .error Error.FieldCount := by
  intro items
  induction items with
  | nil =>
    intro acc fc dc h1 _ _
    simp [countFields] at h1
  | cons item rest ih =>
    obtain ⟨name, content⟩ := item
    intro acc fc dc h1 h2 hfile
    cases hc : content.isFile
    case true =>
      obtain ⟨f, s, rfl⟩ := isFile_eq_file content hc
      have hcf : countFiles ((name, MultipartContent.File f s) :: rest) =
          countFiles rest + 1 := by
        simp [countFiles, List.countP_cons, MultipartContent.isFile]
      have hcd : countFields ((name, MultipartContent.File f s) :: rest) =
          countFields rest := by
        simp [countFields, List.countP_cons, MultipartContent.isFile]
      rw [hcd] at h1 h2
      rw [hcf] at hfile
      have hlt : fc + 1 < form.max_files := by
        rcases hfile with h | h <;> omega
      rw [List.foldlM_cons, multipartStep_file, if_pos hlt]
      exact ih (acc ++ [(name, MultipartContent.File f s)]) (fc + 1) dc h1 h2
        (Or.inr (by rcases hfile with h | h <;> omega))
    case false =>
      have hcf : countFiles ((name, content) :: rest) = countFiles rest := by
        simp [countFiles, List.countP_cons, hc]
      have hcd : countFields ((name, content) :: rest) =
          countFields rest + 1 := by
        simp [countFields, List.countP_cons, hc]
      rw [hcd] at h1 h2
      rw [hcf] at hfile
      by_cases hlt : dc + 1 < form.max_fields
      · rw [List.foldlM_cons, multipartStep_scalar form acc fc dc name content hc,
          if_pos hlt]
        exact ih (acc ++ [(name, content)]) fc (dc + 1) (by omega) (by omega)
          hfile
      · rw [List.foldlM_cons, multipartStep_scalar form acc fc dc name content hc,
          if_neg hlt]
        rfl

/-! ### Claim theorems -/

/-- C3, counterexample: the claim says a field name beginning with `"[]"`
fails with `ContentDisposition`; in the code, `"[]"` splits into the
pieces `""` and `"]"`, whose first piece classifies as the map key `""`,
so parsing succeeds with `[MapKey(""), ArrayIndex]` instead of
failing. -/
theorem c3_bracket_prefix_counterexample :
    parseMultipartName "[]" = .ok [NamePart.Map "", NamePart.Array] ∧
      parseMultipartName "[]" ≠ .error Error.ContentDisposition := by
  constructor
  · decide
  · decide

/-- C3, amended: the Name Parser fails with `ContentDisposition` whenever
the first decoded piece of the bracket-notation name is not a MapKey
(for example the names `"]"` and `"]["`); a name beginning with `"[]"`,
however, decodes its first piece (the empty string before the bracket)
as `MapKey("")` and therefore does not fail. -/
theorem c3_first_segment_guard :
    (∀ (name : String) (p : NamePart) (rest : List NamePart),
        (splitOnLBracket name.toList).map classifyPart = p :: rest →
        p.is_map = false →
        parseMultipartName name = .error Error.ContentDisposition) ∧
      parseMultipartName "]" = .error Error.ContentDisposition ∧
      parseMultipartName "][" = .error Error.ContentDisposition ∧
      parseMultipartName "[]" = .ok [NamePart.Map "", NamePart.Array] := by
  refine ⟨parseName_error_of_head_not_map, by decide, by decide, by decide⟩

/-- C3 witness: the guard concretely fires on the name `"]"`, whose only
piece classifies as `ArrayIndex`. -/
theorem c3_first_segment_guard_w :
    parseMultipartName "]" = .error Error.ContentDisposition :=
  c3_first_segment_guard.1 "]" NamePart.Array [] (by decide) (by decide)

/-- C4: the Name Parser splits at `'['` and classifies each piece — the
piece `"]"` becomes `ArrayIndex`; any other piece ending in `']'`
becomes a MapKey with the trailing bracket(s) stripped (in particular a
piece with exactly one trailing bracket keeps everything before it
verbatim); a piece without a trailing bracket becomes a MapKey verbatim
— and on a name whose first piece is a map key it returns exactly the
classified pieces; `"Hi[One]"`, `"files[]"` and `"a[b][c]"` produce the
claimed sequences. -/
theorem c4_split_and_classify :
    classifyPart [']'] = NamePart.Array ∧
      (∀ part : List Char, part.getLast? = some ']' → part ≠ [']'] →
        classifyPart part =
          NamePart.Map
            (String.mk ((part.reverse.dropWhile (fun c => c = ']')).reverse))) ∧
      (∀ q : List Char, q ≠ [] → q.getLast? ≠ some ']' →
        classifyPart (q ++ [']']) = NamePart.Map (String.mk q)) ∧
      (∀ part : List Char, part.getLast? ≠ some ']' →
        classifyPart part = NamePart.Map (String.mk part)) ∧
      (∀ (name : String) (p : NamePart) (rest : List NamePart),
        (splitOnLBracket name.toList).map classifyPart = p :: rest →
        p.is_map = true → parseMultipartName name = .ok (p :: rest)) ∧
      parseMultipartName "Hi[One]" = .ok [NamePart.Map "Hi", NamePart.Map "One"] ∧
      parseMultipartName "files[]" = .ok [NamePart.Map "files", NamePart.Array] ∧
      parseMultipartName "a[b][c]" =
        .ok [NamePart.Map "a", NamePart.Map "b", NamePart.Map "c"] := by
  have harr : classifyPart [']'] = NamePart.Array := by decide
  have hstrip : ∀ part : List Char, part.getLast? = some ']' → part ≠ [']'] →
      classifyPart part =
        NamePart.Map
          (String.mk ((part.reverse.dropWhile (fun c => c = ']')).reverse)) := by
    intro part hlast hne
    have hc1 : ¬(part.length = 1 ∧ part.getLast? = some ']') := by
      rintro ⟨h1, h2⟩
      obtain ⟨a, rfl⟩ := List.length_eq_one.mp h1
      simp only [List.getLast?_singleton, Option.some.injEq] at h2
      exact hne (by rw [h2])
    rw [classifyPart, if_neg hc1, if_pos hlast]
  refine ⟨harr, hstrip, ?_, ?_, parseName_ok_of_head_map, by decide, by decide,
    by decide⟩
  · intro q hq hlast
    have hne : q ++ [']'] ≠ [']'] := by
      intro h
      have hq0 : q = [] := by
        have := congrArg List.length h
        simpa using this
      exact hq hq0
    rw [hstrip (q ++ [']']) (by simp) hne]
    have hrev : (q ++ [']']).reverse = ']' :: q.reverse := by simp
    rw [hrev]
    have hhead : q.reverse.dropWhile (fun c => c = ']') = q.reverse := by
      cases hq' : q.reverse with
      | nil => simp
      | cons c t =>
        have hc : c ≠ ']' := by
          intro hc
          apply hlast
          rw [← List.head?_reverse, hq', hc]
          rfl
        simp [List.dropWhile_cons, hc]
    simp [List.dropWhile_cons, hhead]
  · intro part hlast
    have hc1 : ¬(part.length = 1 ∧ part.getLast? = some ']') := by
      rintro ⟨-, h2⟩; exact hlast h2
    rw [classifyPart, if_neg hc1, if_neg hlast]

/-- C4 witness: the parser instance of the theorem applied to the name
`"Hi[One]"`, whose first piece classifies as the map key `"Hi"`. -/
theorem c4_split_and_classify_w :
    parseMultipartName "Hi[One]" =
      .ok [NamePart.Map "Hi", NamePart.Map "One"] :=
  c4_split_and_classify.2.2.2.2.1 "Hi[One]" (NamePart.Map "Hi")
    [NamePart.Map "One"] (by decide) (by decide)

/-- C9: a field whose content-disposition metadata carries no name — in
particular a field with no content-disposition header at all, which
parses to the empty metadata — fails with the `Field` error variant, for
every form and independently of any name parsing or schema matching. -/
theorem c9_missing_name_field_error :
    (∀ (form : Form) (fn : Option String),
        resolveStreamField ⟨none, fn⟩ form = .error Error.Field) ∧
      (∀ form : Form,
        resolveStreamField (parseContentDisposition none) form =
          .error Error.Field) ∧
      parseContentDisposition none = ContentDisposition.empty :=
  ⟨fun _ _ => rfl, fun _ => rfl, rfl⟩

/-- C2, counterexample: the claim says a scalar input whose total byte
length equals `max_field_size` is accepted; with `max_field_size = 1`, a
single one-byte chunk makes the accumulation check `0 + 1 < 1` fail, so
the field is rejected with `FieldSize` instead. -/
theorem c2_equal_length_counterexample :
    handleFormData [[53]] FieldTerminator.Text ⟨[], 5, 5, 1, 9⟩ =
      .error Error.FieldSize ∧
      totalLen [[53]] = 1 := by
  constructor
  · decide
  · decide

/-- C2, amended: the accumulation check is strict, so a scalar field is
accepted only while its total byte length stays strictly below
`max_field_size` — an input of total length at most `max_field_size - 1`
is accepted, and an input whose total length equals (or exceeds) a
positive `max_field_size` fails with `FieldSize`, one byte earlier than
the claim states. -/
theorem c2_field_size_boundary (form : Form) (chunks : List (List Nat))
    (term : FieldTerminator) :
    (totalLen chunks < form.max_field_size →
      accumulateField chunks form.max_field_size = .ok chunks.flatten) ∧
      (0 < form.max_field_size → form.max_field_size ≤ totalLen chunks →
        handleFormData chunks term form = .error Error.FieldSize) := by
  constructor
  · intro h
    have := accumFrom_ok form.max_field_size chunks [] (by simpa using h)
    simpa [accumulateField] using this
  · intro hpos h
    have hne : chunks ≠ [] := by
      intro hnil
      rw [hnil] at h
      simp [totalLen] at h
      omega
    have hacc : accumulateField chunks form.max_field_size =
        .error Error.FieldSize := by
      have := accumFrom_error form.max_field_size chunks [] hne
        (by simpa using h)
      simpa [accumulateField] using this
    rw [handleFormData, hacc]
    rfl

/-- C2 witness: with `max_field_size = 2` a one-byte field is accepted,
and with `max_field_size = 1` the same one-byte field fails with
`FieldSize`. -/
theorem c2_field_size_boundary_w :
    accumulateField [[53]] 2 = .ok (List.flatten [[53]]) ∧
      handleFormData [[53]] FieldTerminator.Text ⟨[], 5, 5, 1, 9⟩ =
        .error Error.FieldSize :=
  ⟨(c2_field_size_boundary ⟨[], 5, 5, 2, 9⟩ [[53]] FieldTerminator.Text).1
      (by decide),
    (c2_field_size_boundary ⟨[], 5, 5, 1, 9⟩ [[53]] FieldTerminator.Text).2
      (by decide) (by decide)⟩

/-- C6: for a file field (with a usable filename and a granted storage
path), a stream whose total byte length exactly equals `max_file_size`
is accepted and yields the `File` content, while a stream whose running
byte counter exceeds `max_file_size` aborts with `FileSize`. -/
theorem c6_file_size_boundary (ct : String) (gen : FileGen)
    (fname base stored : String) (form : Form) (chunks : List (List Nat))
    (hbase : pathFileName fname = some base) (hgen : gen ct = some stored) :
    (totalLen chunks = form.max_file_size →
      handleFileUpload ct gen (some fname) form chunks =
        .ok (.File base stored)) ∧
      (form.max_file_size < totalLen chunks →
        handleFileUpload ct gen (some fname) form chunks =
          .error Error.FileSize) := by
  constructor
  · intro h
    have hfold : fileSizeFold chunks form.max_file_size =
        .ok (0 + totalLen chunks) :=
      fileFrom_ok form.max_file_size chunks 0 (by omega)
    rw [handleFileUpload, hbase, hgen, fileSizeFold] at *
    rw [hfold]
    rfl
  · intro h
    have hne : chunks ≠ [] := by
      intro hnil
      rw [hnil] at h
      simp [totalLen] at h
    have hfold : fileSizeFold chunks form.max_file_size =
        .error Error.FileSize :=
      fileFrom_error form.max_file_size chunks 0 hne (by omega)
    rw [handleFileUpload, hbase, hgen, fileSizeFold] at *
    rw [hfold]
    rfl

/-- C6 witness: with `max_file_size = 4`, four bytes across two chunks
are accepted; with `max_file_size = 3`, the same stream aborts with
`FileSize`. -/
theorem c6_file_size_boundary_w :
    handleFileUpload "image/png" (fun _ => some "up/f0.png")
        (some "dir/a.png") ⟨[], 5, 5, 9, 4⟩ [[1, 2], [3, 4]] =
      .ok (.File "a.png" "up/f0.png") ∧
      handleFileUpload "image/png" (fun _ => some "up/f0.png")
          (some "dir/a.png") ⟨[], 5, 5, 9, 3⟩ [[1, 2], [3, 4]] =
        .error Error.FileSize :=
  ⟨(c6_file_size_boundary "image/png" (fun _ => some "up/f0.png")
        "dir/a.png" "a.png" "up/f0.png" ⟨[], 5, 5, 9, 4⟩ [[1, 2], [3, 4]]
        (by decide) rfl).1 (by decide),
    (c6_file_size_boundary "image/png" (fun _ => some "up/f0.png")
        "dir/a.png" "a.png" "up/f0.png" ⟨[], 5, 5, 9, 3⟩ [[1, 2], [3, 4]]
        (by decide) rfl).2 (by decide)⟩

/-- C5: for a scalar field whose accumulation stayed within the size cap
(producing buffer `b`), the result is produced by terminal type: a
`Bytes` terminal yields the raw buffer; the other terminals first decode
it as UTF-8, failing with `ParseField` on invalid bytes; on decoded text
`s`, an `Int` terminal parses `s` as a 64-bit integer (`ParseInt` on
failure), a `Float` terminal parses it as a 64-bit float (`ParseFloat`
on failure), a `Text` terminal keeps it, and the `File` and `Bytes`
arms of the final match reject decoded text with `FieldType`. -/
theorem c5_scalar_terminal_results (chunks : List (List Nat)) (form : Form)
    (b : List Nat)
    (h : accumulateField chunks form.max_field_size = .ok b) :
    handleFormData chunks FieldTerminator.Bytes form = .ok (.Bytes b) ∧
      (utf8Decode b = none →
        handleFormData chunks FieldTerminator.Int form =
            .error Error.ParseField ∧
          handleFormData chunks FieldTerminator.Float form =
            .error Error.ParseField ∧
          handleFormData chunks FieldTerminator.Text form =
            .error Error.ParseField ∧
          ∀ g : FileGen, handleFormData chunks (FieldTerminator.File g) form =
            .error Error.ParseField) ∧
      (∀ cs : List Char, utf8Decode b = some cs →
        (∀ n : Int, parseI64 (String.mk cs) = some n →
          handleFormData chunks FieldTerminator.Int form = .ok (.Int n)) ∧
          (parseI64 (String.mk cs) = none →
            handleFormData chunks FieldTerminator.Int form =
              .error Error.ParseInt) ∧
          (isValidF64 (String.mk cs) = true →
            handleFormData chunks FieldTerminator.Float form =
              .ok (.Float (String.mk cs))) ∧
          (isValidF64 (String.mk cs) = false →
            handleFormData chunks FieldTerminator.Float form =
              .error Error.ParseFloat) ∧
          handleFormData chunks FieldTerminator.Text form =
            .ok (.Text (String.mk cs)) ∧
          ∀ g : FileGen, handleFormData chunks (FieldTerminator.File g) form =
            .error Error.FieldType) ∧
      (∀ (s : String) (g : FileGen),
        finishContent (FieldTerminator.File g) (.Text s) =
          .error Error.FieldType) ∧
      ∀ s : String,
        finishContent FieldTerminator.Bytes (.Text s) = .error Error.FieldType := by
  refine ⟨?_, ?_, ?_, fun s g => rfl, fun s => rfl⟩
  · simp only [handleFormData, h, Except.bind]
    rfl
  · intro hdec
    refine ⟨?_, ?_, ?_, fun g => ?_⟩ <;>
      simp [handleFormData, h, Except.bind, contentOfBuffer, hdec]
  · intro cs hdec
    refine ⟨fun n hn => ?_, fun hn => ?_, fun hf => ?_, fun hf => ?_, ?_,
      fun g => ?_⟩
    · simp [handleFormData, h, Except.bind, contentOfBuffer, finishContent,
        hdec, hn]
    · simp [handleFormData, h, Except.bind, contentOfBuffer, finishContent,
        hdec, hn]
    · simp [handleFormData, h, Except.bind, contentOfBuffer, finishContent,
        hdec, hf]
    · simp [handleFormData, h, Except.bind, contentOfBuffer, finishContent,
        hdec, hf]
    · simp [handleFormData, h, Except.bind, contentOfBuffer, finishContent,
        hdec]
    · simp [handleFormData, h, Except.bind, contentOfBuffer, finishContent,
        hdec]

/-- C5 witness: the buffer `"1"` under a large cap parses as the integer
1 for an `Int` terminal. -/
theorem c5_scalar_terminal_results_w :
    handleFormData [[49]] FieldTerminator.Int ⟨[], 5, 5, 9, 9⟩ =
      .ok (.Int 1) :=
  ((c5_scalar_terminal_results [[49]] ⟨[], 5, 5, 9, 9⟩ [49]
        (by decide)).2.2.1 ['1'] (by decide)).1 1 (by decide)

/-- C1: the orchestrator increments each counter before testing it with a
strict less-than, so a submission of exactly `max_files` file items (with
a positive limit) fails with `FileCount` — only submissions of at most
`max_files - 1` file items are accepted — and symmetrically a submission
of exactly `max_fields` scalar items fails with `FieldCount`, while at
most `max_fields - 1` scalar items are accepted. -/
theorem c1_counter_off_by_one (form : Form) :
    (∀ items : List MultipartHash, (∀ p ∈ items, p.2.isFile = true) →
        0 < form.max_files → items.length = form.max_files →
        multipartFold items form = .error Error.FileCount) ∧
      (∀ items : List MultipartHash, (∀ p ∈ items, p.2.isFile = true) →
        items.length < form.max_files →
        multipartFold items form = .ok (items, items.length, 0)) ∧
      (∀ items : List MultipartHash, (∀ p ∈ items, p.2.isFile = false) →
        0 < form.max_fields → items.length = form.max_fields →
        multipartFold items form = .error Error.FieldCount) ∧
      (∀ items : List MultipartHash, (∀ p ∈ items, p.2.isFile = false) →
        items.length < form.max_fields →
        multipartFold items form = .ok (items, 0, items.length)) := by
  have hfileCount : ∀ items : List MultipartHash,
      (∀ p ∈ items, p.2.isFile = true) → countFiles items = items.length := by
    intro items hall
    exact List.countP_eq_length.mpr (fun p hp => by simp [hall p hp])
  have hfieldZero : ∀ items : List MultipartHash,
      (∀ p ∈ items, p.2.isFile = true) → countFields items = 0 := by
    intro items hall
    refine List.countP_eq_zero.mpr (fun p hp => by simp [hall p hp])
  have hfieldCount : ∀ items : List MultipartHash,
      (∀ p ∈ items, p.2.isFile = false) → countFields items = items.length := by
    intro items hall
    exact List.countP_eq_length.mpr (fun p hp => by simp [hall p hp])
  have hfileZero : ∀ items : List MultipartHash,
      (∀ p ∈ items, p.2.isFile = false) → countFiles items = 0 := by
    intro items hall
    refine List.countP_eq_zero.mpr (fun p hp => by simp [hall p hp])
  refine ⟨?_, ?_, ?_, ?_⟩
  · intro items hall hpos hlen
    rw [multipartFold]
    exact mpFold_fileCount form items [] 0 0
      (by rw [hfileCount items hall]; omega)
      (by rw [hfileCount items hall]; omega)
      (Or.inl (hfieldZero items hall))
  · intro items hall hlen
    rw [multipartFold]
    have := mpFold_accept form items [] 0 0
      (Or.inr (by rw [hfileCount items hall]; omega))
      (Or.inl (hfieldZero items hall))
    rw [hfileCount items hall, hfieldZero items hall] at this
    simpa using this
  · intro items hall hpos hlen
    rw [multipartFold]
    exact mpFold_fieldCount form items [] 0 0
      (by rw [hfieldCount items hall]; omega)
      (by rw [hfieldCount items hall]; omega)
      (Or.inl (hfileZero items hall))
  · intro items hall hlen
    rw [multipartFold]
    have := mpFold_accept form items [] 0 0
      (Or.inl (hfileZero items hall))
      (Or.inr (by rw [hfieldCount items hall]; omega))
    rw [hfileZero items hall, hfieldCount items hall] at this
    simpa using this

/-- C1 witness: with `max_files = max_fields = 2`, two file items fail
with `FileCount`, one file item is accepted, and two scalar items fail
with `FieldCount`. -/
theorem c1_counter_off_by_one_w :
    multipartFold
        [([NamePart.Map "f"], MultipartContent.File "a" "b"),
          ([NamePart.Map "f"], MultipartContent.File "c" "d")]
        ⟨[], 2, 2, 9, 9⟩ = .error Error.FileCount ∧
      multipartFold [([NamePart.Map "f"], MultipartContent.File "a" "b")]
          ⟨[], 2, 2, 9, 9⟩ =
        .ok ([([NamePart.Map "f"], MultipartContent.File "a" "b")], 1, 0) ∧
      multipartFold
          [([NamePart.Map "t"], MultipartContent.Text "x"),
            ([NamePart.Map "t"], MultipartContent.Text "y")]
          ⟨[], 2, 2, 9, 9⟩ = .error Error.FieldCount :=
  ⟨(c1_counter_off_by_one ⟨[], 2, 2, 9, 9⟩).1
      [([NamePart.Map "f"], MultipartContent.File "a" "b"),
        ([NamePart.Map "f"], MultipartContent.File "c" "d")]
      (by decide) (by decide) (by decide),
    (c1_counter_off_by_one ⟨[], 2, 2, 9, 9⟩).2.1
      [([NamePart.Map "f"], MultipartContent.File "a" "b")]
      (by decide) (by decide),
    (c1_counter_off_by_one ⟨[], 2, 2, 9, 9⟩).2.2.1
      [([NamePart.Map "t"], MultipartContent.Text "x"),
        ([NamePart.Map "t"], MultipartContent.Text "y")]
      (by decide) (by decide) (by decide)⟩

/-- C7: consolidation folds each (path, content) pair into a singleton
value from the innermost segment outward — an ArrayIndex segment wraps
the current value in a one-element array, a MapKey segment in a
single-entry map — and merges the singletons into an accumulator that
starts as an empty map; merging the pairs for `{a:[1]}` then `{a:[2]}`
yields `{a:[1,2]}`, with the array elements in arrival order. -/
theorem c7_consolidate_merges_singletons :
    (∀ mf : List MultipartHash,
        consolidate mf =
          mf.foldl (fun acc p => Value.merge acc (specSingleton p.1 p.2))
            (Value.Map [])) ∧
      consolidate
          [([NamePart.Map "a", NamePart.Array], MultipartContent.Int 1),
            ([NamePart.Map "a", NamePart.Array], MultipartContent.Int 2)] =
        Value.Map [("a", Value.Array [Value.Int 1, Value.Int 2])] := by
  constructor
  · intro mf
    simp only [consolidate, specSingleton]
    congr 1
    funext acc p
    rw [List.foldl_reverse]
  · simp [consolidate, Value.merge, Value.mergeEntries, Value.insertEntry,
      Value.fromContent]

/-- C8: for a File-typed terminal, a missing filename in the content
disposition fails with `Filename`, a declined filename-generation
capability fails with `GenFilename`, and otherwise (with the size check
passing) the handler yields `MultipartContent.File` carrying the
filename and the capability-chosen storage path. -/
theorem c8_file_naming (ct : String) (gen : FileGen) (form : Form)
    (chunks : List (List Nat)) :
    handleFileUpload ct gen none form chunks = .error Error.Filename ∧
      (∀ fname base, pathFileName fname = some base → gen ct = none →
        handleFileUpload ct gen (some fname) form chunks =
          .error Error.GenFilename) ∧
      ∀ fname base stored s, pathFileName fname = some base →
        gen ct = some stored →
        fileSizeFold chunks form.max_file_size = .ok s →
        handleFileUpload ct gen (some fname) form chunks =
          .ok (.File base stored) := by
  refine ⟨rfl, ?_, ?_⟩
  · intro fname base hbase hgen
    rw [handleFileUpload, hbase, hgen]
  · intro fname base stored s hbase hgen hfold
    rw [handleFileUpload, hbase, hgen, hfold]
    rfl

/-- C8 witness: a concrete upload with no filename fails with
`Filename`, one whose capability declines fails with `GenFilename`, and
one with both present stores under the capability's path. -/
theorem c8_file_naming_w :
    handleFileUpload "t" (fun _ => some "st.png") none ⟨[], 5, 5, 9, 9⟩
        [[1]] = .error Error.Filename ∧
      handleFileUpload "t" (fun _ => none) (some "a.png") ⟨[], 5, 5, 9, 9⟩
          [[1]] = .error Error.GenFilename ∧
      handleFileUpload "t" (fun _ => some "st.png") (some "a.png")
          ⟨[], 5, 5, 9, 9⟩ [[1]] = .ok (.File "a.png" "st.png") :=
  ⟨(c8_file_naming "t" (fun _ => some "st.png") ⟨[], 5, 5, 9, 9⟩ [[1]]).1,
    (c8_file_naming "t" (fun _ => none) ⟨[], 5, 5, 9, 9⟩ [[1]]).2.1
      "a.png" "a.png" (by decide) rfl,
    (c8_file_naming "t" (fun _ => some "st.png") ⟨[], 5, 5, 9, 9⟩ [[1]]).2.2
      "a.png" "a.png" "st.png" 1 (by decide) rfl (by decide)⟩

/-- C10: the filename recorded for an accepted file field is the final
path component of the client-supplied filename — any directory prefix is
stripped, as in `"dir/sub/a.png" ↦ "a.png"` — and a supplied filename
with no extractable final component (such as one ending in `".."`, or
`"/"`) fails with `Filename`. -/
theorem c10_final_path_component (ct : String) (gen : FileGen) (form : Form)
    (chunks : List (List Nat)) :
    (∀ fname base stored s, pathFileName fname = some base →
        gen ct = some stored →
        fileSizeFold chunks form.max_file_size = .ok s →
        handleFileUpload ct gen (some fname) form chunks =
          .ok (.File base stored)) ∧
      (∀ fname, pathFileName fname = none →
        handleFileUpload ct gen (some fname) form chunks =
          .error Error.Filename) ∧
      pathFileName "dir/sub/a.png" = some "a.png" ∧
      pathFileName "a.png/.." = none ∧
      pathFileName "/" = none := by
  refine ⟨?_, ?_, by decide, by decide, by decide⟩
  · intro fname base stored s hbase hgen hfold
    rw [handleFileUpload, hbase, hgen, hfold]
    rfl
  · intro fname hnone
    rw [handleFileUpload, hnone]

/-- C10 witness: a client filename with a directory prefix is recorded by
its final component only, and a filename ending in `".."` is rejected
with `Filename`. -/
theorem c10_final_path_component_w :
    handleFileUpload "t" (fun _ => some "st.png") (some "dir/sub/a.png")
        ⟨[], 5, 5, 9, 9⟩ [[1]] = .ok (.File "a.png" "st.png") ∧
      handleFileUpload "t" (fun _ => some "st.png") (some "a.png/..")
          ⟨[], 5, 5, 9, 9⟩ [[1]] = .error Error.Filename :=
  ⟨(c10_final_path_component "t" (fun _ => some "st.png") ⟨[], 5, 5, 9, 9⟩
        [[1]]).1 "dir/sub/a.png" "a.png" "st.png" 1 (by decide) rfl
      (by decide),
    (c10_final_path_component "t" (fun _ => some "st.png") ⟨[], 5, 5, 9, 9⟩
        [[1]]).2.1 "a.png/.." (by decide)⟩

end FormData

